import Mathlib

/-!
# Verification of the Clyst query interpreter and hashtag extractor

Shallow embedding of the natural-language search-query parser
(`natural_search.parse_search_query`), the hashtag helper
(`extract_hashtags` in `app.py`), and the filter-building logic of the
two listing routes (`home`, `products_page` in `app.py`).

The `natural_search` module itself is not part of the provided sources
(only its caller `app.py` is), so `parse_search_query` and its helpers
are modelled from the specification's algorithm description.  The code
of `extract_hashtags`, `home` and `products_page` is translated from
`src/app.py` directly.  Strings are treated at ASCII granularity
(letters `A`-`Z`/`a`-`z` and digits), which covers every behaviour the
claims mention.
-/

/-- ASCII lowercasing of a single character: `A`..`Z` (codepoints 65..90)
map to `a`..`z` (codepoints 97..122); every other character is fixed.
Models Python's `str.lower()` at ASCII granularity. -/
def lowerChar (c : Char) : Char :=
  if 65 ≤ c.toNat ∧ c.toNat ≤ 90 then Char.ofNat (c.toNat + 32) else c

/-- A character counts as alphanumeric (ASCII letter or digit). -/
def isAlnum (c : Char) : Bool :=
  c.isAlpha || c.isDigit

/-- Splitter worker: walks the character list, accumulating the current
alphanumeric run (in reverse) in `acc`, and emits a token at every
non-alphanumeric boundary.  Models "tokenize on non-alphanumeric
boundaries, preserving numeric substrings". -/
def splitAux : List Char → List Char → List String
  | [], acc => if acc.isEmpty then [] else [String.mk acc.reverse]
  | c :: cs, acc =>
    if isAlnum c then splitAux cs (c :: acc)
    else if acc.isEmpty then splitAux cs []
    else String.mk acc.reverse :: splitAux cs []

/-- Modelled from the spec: step 1 of `parse_search_query`'s algorithm
("Lowercase and tokenize on non-alphanumeric boundaries, preserving
numeric substrings").  The `natural_search` module is not among the
provided sources. -/
def tokenize (s : String) : List String :=
  splitAux (s.data.map lowerChar) []

/-- Parse a token as a non-negative integer: succeeds exactly when the
token is a non-empty string of decimal digits.  Models the numeric
parse inside the price-phrase scanner; on any other token it fails
(and the scanner then degrades gracefully). -/
def parseNum? (t : String) : Option Int :=
  if !t.data.isEmpty && t.data.all Char.isDigit then
    some (Int.ofNat (t.data.foldl (fun n c => n * 10 + (c.toNat - 48)) 0))
    else none

/-- The trigger words of the price-phrase scanner, as listed by the
spec: "under"/"below"/"less than" bound the maximum, "over"/"above"/
"more than" bound the minimum, "between"/"from" with "and"/"to" bound
both. -/
def triggerWords : List String :=
  ["under", "below", "over", "above", "less", "more", "between", "from"]

/-- Modelled from the spec: steps 2-3 of `parse_search_query`'s
algorithm.  Scans the token stream for price-constraint phrases,
consuming the trigger words and numeric tokens of every recognised
phrase and keeping all other tokens; a phrase whose numeric part fails
to parse is dropped silently, its tokens retained.  A later phrase
overwrites an earlier bound (last phrase wins).  In a "between"/"from"
phrase the smaller number becomes the lower bound.  Returns the kept
tokens and the two optional bounds.  The first argument is fuel making
the recursion structural; when the fuel runs out the remaining tokens
are kept unchanged (with one unit of fuel per token this never
happens, since every step consumes at least one token). -/
def scanF : Nat → List String → Option Int → Option Int → List String × Option Int × Option Int
  | 0, ts, mn, mx => (ts, mn, mx)
  | _ + 1, [], mn, mx => ([], mn, mx)
  | fuel + 1, t :: rest, mn, mx =>
    if t = "under" || t = "below" then
      match rest with
      | n :: rest2 =>
        match parseNum? n with
        | some v => scanF fuel rest2 mn (some v)
        | none =>
          let r := scanF fuel rest mn mx
          (t :: r.1, r.2)
      | [] => ([t], mn, mx)
    else if t = "over" || t = "above" then
      match rest with
      | n :: rest2 =>
        match parseNum? n with
        | some v => scanF fuel rest2 (some v) mx
        | none =>
          let r := scanF fuel rest mn mx
          (t :: r.1, r.2)
      | [] => ([t], mn, mx)
    else if t = "less" || t = "more" then
      match rest with
      | w :: n :: rest2 =>
        if w = "than" then
          match parseNum? n with
          | some v =>
            if t = "less" then scanF fuel rest2 mn (some v)
            else scanF fuel rest2 (some v) mx
          | none =>
            let r := scanF fuel rest mn mx
            (t :: r.1, r.2)
        else
          let r := scanF fuel rest mn mx
          (t :: r.1, r.2)
      | _ =>
        let r := scanF fuel rest mn mx
        (t :: r.1, r.2)
    else if t = "between" || t = "from" then
      match rest with
      | n1 :: w :: n2 :: rest2 =>
        if w = "and" || w = "to" then
          match parseNum? n1, parseNum? n2 with
          | some a, some b => scanF fuel rest2 (some (min a b)) (some (max a b))
          | _, _ =>
            let r := scanF fuel rest mn mx
            (t :: r.1, r.2)
        else
          let r := scanF fuel rest mn mx
          (t :: r.1, r.2)
      | _ =>
        let r := scanF fuel rest mn mx
        (t :: r.1, r.2)
    else
      let r := scanF fuel rest mn mx
      (t :: r.1, r.2)

/-- Entry point of the scanner: one unit of fuel per input token is
enough, since every step of `scanF` consumes at least one token. -/
def scanPrices (ts : List String) (mn mx : Option Int) :
    List String × Option Int × Option Int :=
  scanF ts.length ts mn mx

/-- Modelled from the spec: the fixed stopword list (articles,
prepositions, pronouns) of step 4 of `parse_search_query`'s
algorithm. -/
def stopwords : List String :=
  ["a", "an", "the", "of", "in", "on", "at", "by", "for", "with",
   "and", "or", "to", "is", "are", "was", "were", "it", "this", "that",
   "these", "those", "my", "your", "his", "her", "its", "our", "their",
   "i", "you", "he", "she", "we", "they", "me", "him", "us", "them"]

/-- De-duplication worker: keeps the first occurrence of every element,
dropping later repeats (`seen` holds the elements already emitted). -/
def dedupAux : List String → List String → List String
  | [], _ => []
  | t :: ts, seen =>
    if t ∈ seen then dedupAux ts seen
    else t :: dedupAux ts (t :: seen)

/-- Modelled from the spec: step 5 of `parse_search_query`'s algorithm
("De-duplicate remaining tokens preserving first-seen order"). -/
def dedup (l : List String) : List String :=
  dedupAux l []

/-- The structured filter produced by the query interpreter:
an ordered keyword list and two optional price bounds. -/
structure ParsedFilter where
  keywords : List String
  min_price : Option Int
  max_price : Option Int
deriving DecidableEq, Repr

/-- Reconcile the two scanned bounds so that the returned filter
satisfies the spec's data-model guarantee `min_price ≤ max_price`
whenever both are present (spec §8 lists reconciliation as the
documented policy for conflicting phrases). -/
def reconcile : Option Int → Option Int → Option Int × Option Int
  | some a, some b => if b < a then (some b, some a) else (some a, some b)
  | mn, mx => (mn, mx)

/-- Modelled from the spec: `natural_search.parse_search_query`.
Lowercases and tokenizes the input, scans for price-constraint
phrases, removes the consumed tokens, filters the fixed stopword
list, de-duplicates preserving first-seen order, and reconciles the
bounds so `min_price ≤ max_price` when both are present. -/
def parse_search_query (s : String) : ParsedFilter :=
  let r := scanPrices (tokenize s) none none
  let kws := dedup (r.1.filter (fun t => !(stopwords.contains t)))
  let b := reconcile r.2.1 r.2.2
  ⟨kws, b.1, b.2⟩

/-- Space-joining of a keyword list, as in Python's
`" ".join(keywords)`. -/
def joinSpace : List String → String
  | [] => ""
  | [w] => w
  | w :: ws => w ++ " " ++ joinSpace ws

/-- Whitespace test used by Python's `str.strip()` (ASCII granularity:
space, tab, newline, carriage return, form feed, vertical tab). -/
def isSpaceChar (c : Char) : Bool :=
  c = ' ' || c = '\t' || c = '\n' || c = '\r' || c = '\x0c' || c = '\x0b'

/-- Python's `str.strip()`: drop leading and trailing whitespace.
Translates the `.strip()` call on the `q` request argument in `home`
and `products_page` (`src/app.py`). -/
def pyStrip (s : String) : String :=
  String.mk (((s.data.dropWhile isSpaceChar).reverse.dropWhile isSpaceChar).reverse)

/-- A WHERE-clause of the listing queries, as built by `home` and
`products_page` in `app.py`: `keywordLike pat` stands for the OR of
case-insensitive substring matches (`ilike`) of `pat` against the
title, description and author-name columns; `priceAtMost`/`priceAtLeast`
stand for `Product.price <= v` / `Product.price >= v`. -/
inductive WhereClause where
  | keywordLike (pat : String)
  | priceAtMost (v : Int)
  | priceAtLeast (v : Int)
deriving DecidableEq, Repr

/-- The filter conditions the `home` route (posts listing, `app.py`)
adds to its query for a raw `q` request argument: it strips the
argument, and if non-empty parses it and adds one `ilike` filter per
keyword.  It never uses the parsed price bounds. -/
def homeFilters (qArg : String) : List WhereClause :=
  let q := pyStrip qArg
  if q = "" then []
  else
    let parsed := parse_search_query q
    parsed.keywords.map (fun tk => WhereClause.keywordLike ("%" ++ tk ++ "%"))

/-- The filter conditions the `products_page` route (products listing,
`app.py`) adds to its query for a raw `q` request argument: one
`ilike` filter per keyword, then `price <= max_price` when present,
then `price >= min_price` when present. -/
def productsFilters (qArg : String) : List WhereClause :=
  let q := pyStrip qArg
  if q = "" then []
  else
    let parsed := parse_search_query q
    let base := parsed.keywords.map (fun tk => WhereClause.keywordLike ("%" ++ tk ++ "%"))
    let withMax :=
      match parsed.max_price with
      | some v => base ++ [WhereClause.priceAtMost v]
      | none => base
    match parsed.min_price with
    | some v => withMax ++ [WhereClause.priceAtLeast v]
    | none => withMax

/-- Whether a clause constrains the price column. -/
def isPriceClause : WhereClause → Bool
  | WhereClause.keywordLike _ => false
  | WhereClause.priceAtMost _ => true
  | WhereClause.priceAtLeast _ => true

/-- A word character in the sense of the regex `\w` used by
`extract_hashtags` (ASCII granularity): letter, digit or underscore. -/
def isWordChar (c : Char) : Bool :=
  c.isAlpha || c.isDigit || c = '_'

/-- All matches of the regex `#(\w+)` in a character stream, scanned
left to right without overlap, each capture being the maximal run of
word characters after the `#`.  Translates the
`re.findall(r'#(\w+)', text)` call in `extract_hashtags`
(`src/app.py`). -/
def findTagsF : Nat → List Char → List String
  | 0, _ => []
  | _ + 1, [] => []
  | fuel + 1, c :: cs =>
    if c = '#' then
      let run := cs.takeWhile isWordChar
      if run.isEmpty then findTagsF fuel cs
      else String.mk run :: findTagsF fuel (cs.dropWhile isWordChar)
    else findTagsF fuel cs

/-- Entry point of the hashtag matcher: one unit of fuel per character
is enough, since every step of `findTagsF` consumes at least one
character. -/
def findTags (l : List Char) : List String :=
  findTagsF l.length l

/-- ASCII lowercasing of a whole string. -/
def strLower (w : String) : String :=
  String.mk (w.data.map lowerChar)

/-- Translation of `extract_hashtags` from `src/app.py`: `None` or an
empty string yields `[]`; otherwise the `#(\w+)` matches are collected,
lowercased, and de-duplicated preserving first-occurrence order. -/
def extract_hashtags (text : Option String) : List String :=
  match text with
  | none => []
  | some s =>
    if s = "" then []
    else dedup ((findTags s.data).map strLower)

/-- A well-formed token: non-empty, every character ASCII-alphanumeric
and fixed under lowercasing. -/
def goodTok (w : String) : Prop :=
  w.data ≠ [] ∧ ∀ c ∈ w.data, isAlnum c = true ∧ lowerChar c = c

/-- Predicate: an optional bound is non-negative when present. -/
def nnOpt (o : Option Int) : Prop :=
  ∀ v : Int, o = some v → 0 ≤ v

/-! ## Character-level facts -/

theorem lowerChar_of_not_upper {c : Char} (h : ¬(65 ≤ c.toNat ∧ c.toNat ≤ 90)) :
    lowerChar c = c := by
  simp [lowerChar, h]

theorem lowerChar_idem (c : Char) : lowerChar (lowerChar c) = lowerChar c := by
  by_cases h : 65 ≤ c.toNat ∧ c.toNat ≤ 90
  · rw [show lowerChar c = Char.ofNat (c.toNat + 32) from if_pos h]
    obtain ⟨h1, h2⟩ := h
    rw [lowerChar]
    rw [if_neg]
    generalize c.toNat = n at h1 h2 ⊢
    interval_cases n <;> decide
  · rw [lowerChar_of_not_upper h, lowerChar_of_not_upper h]

/-! ## Tokenizer facts -/

theorem splitAux_good :
    ∀ (l acc : List Char),
      (∀ c ∈ l, lowerChar c = c) →
      (∀ c ∈ acc, isAlnum c = true ∧ lowerChar c = c) →
      ∀ w ∈ splitAux l acc, goodTok w := by
  intro l
  induction l with
  | nil =>
    intro acc _ hacc w hw
    by_cases ha : acc.isEmpty
    · simp [splitAux, ha] at hw
    · simp [splitAux, ha] at hw
      subst hw
      refine ⟨?_, ?_⟩
      · simpa [List.isEmpty_iff] using ha
      · intro c hc
        exact hacc c (by simpa using hc)
  | cons x xs ih =>
    intro acc hl hacc w hw
    have hx : lowerChar x = x := hl x (by simp)
    have hxs : ∀ c ∈ xs, lowerChar c = c := fun c hc => hl c (by simp [hc])
    by_cases hal : isAlnum x = true
    · rw [splitAux, if_pos hal] at hw
      refine ih (x :: acc) hxs ?_ w hw
      intro c hc
      rcases List.mem_cons.mp hc with h | h
      · subst h; exact ⟨hal, hx⟩
      · exact hacc c h
    · rw [splitAux, if_neg hal] at hw
      by_cases ha : acc.isEmpty
      · rw [if_pos ha] at hw
        exact ih [] hxs (by simp) w hw
      · rw [if_neg ha] at hw
        rcases List.mem_cons.mp hw with h | h
        · subst h
          refine ⟨by simpa [List.isEmpty_iff] using ha, ?_⟩
          intro c hc
          exact hacc c (by simpa using hc)
        · exact ih [] hxs (by simp) w h

theorem tokenize_good (s : String) : ∀ w ∈ tokenize s, goodTok w := by
  intro w hw
  refine splitAux_good (s.data.map lowerChar) [] ?_ (by simp) w hw
  intro c hc
  rcases List.mem_map.mp hc with ⟨d, _, hd⟩
  subst hd
  exact lowerChar_idem d

theorem map_fix {l : List Char} (h : ∀ c ∈ l, lowerChar c = c) :
    l.map lowerChar = l := by
  induction l with
  | nil => rfl
  | cons x xs ih =>
    simp only [List.map_cons]
    rw [h x (by simp), ih fun c hc => h c (by simp [hc])]

theorem splitAux_append {w : List Char} (hw : ∀ c ∈ w, isAlnum c = true) :
    ∀ (l acc : List Char), splitAux (w ++ l) acc = splitAux l (w.reverse ++ acc) := by
  induction w with
  | nil => intro l acc; rfl
  | cons x xs ih =>
    intro l acc
    have hx : isAlnum x = true := hw x (by simp)
    rw [List.cons_append, splitAux, if_pos hx,
      ih (fun c hc => hw c (by simp [hc])) l (x :: acc)]
    simp

theorem splitAux_space {acc : List Char} (hacc : acc ≠ []) (l : List Char) :
    splitAux (' ' :: l) acc = String.mk acc.reverse :: splitAux l [] := by
  rw [splitAux, if_neg (by decide), if_neg (by simpa [List.isEmpty_iff] using hacc)]

theorem string_mk_data (w : String) : String.mk w.data = w := rfl

theorem tokenize_joinSpace :
    ∀ ws : List String, (∀ w ∈ ws, goodTok w) → tokenize (joinSpace ws) = ws := by
  intro ws
  induction ws with
  | nil => intro _; rfl
  | cons w vs ih =>
    intro hgood
    have hw : goodTok w := hgood w (by simp)
    have hwall : ∀ c ∈ w.data, isAlnum c = true := fun c hc => (hw.2 c hc).1
    have hwfix : ∀ c ∈ w.data, lowerChar c = c := fun c hc => (hw.2 c hc).2
    cases vs with
    | nil =>
      show tokenize w = [w]
      rw [tokenize, map_fix hwfix]
      rw [show w.data = w.data ++ ([] : List Char) by simp, splitAux_append hwall]
      rw [splitAux]
      rw [if_neg (by simpa [List.isEmpty_iff] using hw.1)]
      simp [string_mk_data]
    | cons v vs2 =>
      have hj : joinSpace (w :: v :: vs2) = w ++ " " ++ joinSpace (v :: vs2) := rfl
      have hdata : (w ++ " " ++ joinSpace (v :: vs2)).data
          = w.data ++ ' ' :: (joinSpace (v :: vs2)).data := by
        simp [String.data_append]
      rw [tokenize, hj, hdata, List.map_append, map_fix hwfix]
      rw [show (' ' :: (joinSpace (v :: vs2)).data).map lowerChar
          = ' ' :: ((joinSpace (v :: vs2)).data.map lowerChar) by simp [lowerChar]]
      rw [splitAux_append hwall, List.append_nil]
      rw [splitAux_space (by simpa [List.isEmpty_iff] using hw.1)]
      rw [show String.mk w.data.reverse.reverse = w by simp [string_mk_data]]
      rw [show splitAux ((joinSpace (v :: vs2)).data.map lowerChar) []
          = tokenize (joinSpace (v :: vs2)) from rfl]
      rw [ih fun u hu => hgood u (by simp [hu])]

/-! ## Scanner facts -/

theorem scanF_keep_sublist (fuel : Nat) (ts : List String) (mn mx : Option Int) :
    List.Sublist (scanF fuel ts mn mx).1 ts := by
  induction fuel, ts, mn, mx using scanF.induct
  all_goals simp_all [scanF]
  all_goals (repeat' (first | assumption | apply List.Sublist.cons))

theorem parseNum?_nonneg {t : String} {v : Int} (h : parseNum? t = some v) :
    0 ≤ v := by
  rw [parseNum?] at h
  by_cases hc : (!t.data.isEmpty && t.data.all Char.isDigit) = true
  · rw [if_pos hc] at h
    rcases Option.some_inj.mp h with rfl
    exact Int.ofNat_nonneg _
  · rw [if_neg hc] at h
    exact absurd h (by simp)

theorem scanF_no_trigger (fuel : Nat) :
    ∀ (ts : List String) (mn mx : Option Int),
      (∀ t ∈ ts, t ∉ triggerWords) → scanF fuel ts mn mx = (ts, mn, mx) := by
  induction fuel with
  | zero => intro ts mn mx _; rfl
  | succ fuel ih =>
    intro ts mn mx h
    cases ts with
    | nil => rfl
    | cons t rest =>
      have ht : t ∉ triggerWords := h t (by simp)
      simp only [triggerWords, List.mem_cons, List.mem_singleton, not_or] at ht
      obtain ⟨h1, h2, h3, h4, h5, h6, h7, h8⟩ := ht
      have hrest : ∀ u ∈ rest, u ∉ triggerWords := fun u hu => h u (by simp [hu])
      rw [scanF.eq_def]
      dsimp only
      rw [if_neg (by simp [h1, h2]), if_neg (by simp [h3, h4]),
        if_neg (by simp [h5, h6]), if_neg (by simp [h7, h8])]
      simp [ih rest mn mx hrest]

/-- A successfully parsed numeric token yields a non-negative bound. -/
theorem nnOpt_of_parse {n : String} {v : Int} (hp : parseNum? n = some v) :
    nnOpt (some v) := by
  intro v' hv'
  cases hv'
  exact parseNum?_nonneg hp

/-- The scanner only ever installs non-negative bounds: if the incoming
bounds satisfy non-negativity then so do the outgoing ones. -/
theorem scanF_nonneg (fuel : Nat) (ts : List String) (mn mx : Option Int)
    (hmn : nnOpt mn) (hmx : nnOpt mx) :
    nnOpt (scanF fuel ts mn mx).2.1 ∧ nnOpt (scanF fuel ts mn mx).2.2 := by
  induction fuel, ts, mn, mx using scanF.induct with
  | case1 ts mn mx => exact ⟨hmn, hmx⟩
  | case2 n mn mx => exact ⟨hmn, hmx⟩
  | case3 fuel t mn mx h n rest2 v hp ih =>
    rw [scanF.eq_def]
    dsimp only
    rw [if_pos h, hp]
    exact ih hmn (nnOpt_of_parse hp)
  | case4 fuel t mn mx h n rest2 hp ih =>
    rw [scanF.eq_def]
    dsimp only
    rw [if_pos h, hp]
    exact ih hmn hmx
  | case5 fuel t mn mx h =>
    rw [scanF.eq_def]
    dsimp only
    rw [if_pos h]
    exact ⟨hmn, hmx⟩
  | case6 fuel t mn mx h1 h2 n rest2 v hp ih =>
    rw [scanF.eq_def]
    dsimp only
    rw [if_neg h1, if_pos h2, hp]
    exact ih (nnOpt_of_parse hp) hmx
  | case7 fuel t mn mx h1 h2 n rest2 hp ih =>
    rw [scanF.eq_def]
    dsimp only
    rw [if_neg h1, if_pos h2, hp]
    exact ih hmn hmx
  | case8 fuel t mn mx h1 h2 =>
    rw [scanF.eq_def]
    dsimp only
    rw [if_neg h1, if_pos h2]
    exact ⟨hmn, hmx⟩
  | case9 fuel mn mx n rest2 v hp h1 h2 h3 ih =>
    rw [scanF.eq_def]
    dsimp only
    rw [if_neg h1, if_neg h2, if_pos h3, if_pos rfl, hp]
    dsimp only
    rw [if_pos rfl]
    exact ih hmn (nnOpt_of_parse hp)
  | case10 fuel t mn mx h1 h2 h3 n rest2 v hp hne ih =>
    rw [scanF.eq_def]
    dsimp only
    rw [if_neg h1, if_neg h2, if_pos h3, if_pos rfl, hp]
    dsimp only
    rw [if_neg hne]
    exact ih (nnOpt_of_parse hp) hmx
  | case11 fuel t mn mx h1 h2 h3 n rest2 hp ih =>
    rw [scanF.eq_def]
    dsimp only
    rw [if_neg h1, if_neg h2, if_pos h3, if_pos rfl, hp]
    exact ih hmn hmx
  | case12 fuel t mn mx h1 h2 h3 w n rest2 hw ih =>
    rw [scanF.eq_def]
    dsimp only
    rw [if_neg h1, if_neg h2, if_pos h3, if_neg hw]
    exact ih hmn hmx
  | case13 fuel t rest mn mx h1 h2 h3 hshape ih =>
    rcases rest with _ | ⟨a, _ | ⟨b, rest2⟩⟩
    · rw [scanF.eq_def]
      dsimp only
      rw [if_neg h1, if_neg h2, if_pos h3]
      exact ih hmn hmx
    · rw [scanF.eq_def]
      dsimp only
      rw [if_neg h1, if_neg h2, if_pos h3]
      exact ih hmn hmx
    · exact absurd rfl (hshape a b rest2)
  | case14 fuel t mn mx h1 h2 h3 h4 n1 w n2 rest2 hw a b hp2 hp1 ih =>
    rw [scanF.eq_def]
    dsimp only
    rw [if_neg h1, if_neg h2, if_neg h3, if_pos h4, if_pos hw, hp1, hp2]
    refine ih (fun v hv => ?_) (fun v hv => ?_)
    · cases hv
      exact le_min (parseNum?_nonneg hp1) (parseNum?_nonneg hp2)
    · cases hv
      exact (parseNum?_nonneg hp1).trans le_sup_left
  | case15 fuel t mn mx h1 h2 h3 h4 n1 w n2 rest2 hw hfail ih =>
    rw [scanF.eq_def]
    dsimp only
    rw [if_neg h1, if_neg h2, if_neg h3, if_pos h4, if_pos hw]
    rcases hone : parseNum? n1 with _ | a
    all_goals rcases htwo : parseNum? n2 with _ | b
    all_goals dsimp only
    all_goals try exact ih hmn hmx
    exact (hfail a b hone htwo).elim
  | case16 fuel t mn mx h1 h2 h3 h4 n1 w n2 rest2 hw ih =>
    rw [scanF.eq_def]
    dsimp only
    rw [if_neg h1, if_neg h2, if_neg h3, if_pos h4, if_neg hw]
    exact ih hmn hmx
  | case17 fuel t rest mn mx h1 h2 h3 h4 hshape ih =>
    rcases rest with _ | ⟨a, _ | ⟨b, _ | ⟨c, rest2⟩⟩⟩
    · rw [scanF.eq_def]
      dsimp only
      rw [if_neg h1, if_neg h2, if_neg h3, if_pos h4]
      exact ih hmn hmx
    · rw [scanF.eq_def]
      dsimp only
      rw [if_neg h1, if_neg h2, if_neg h3, if_pos h4]
      exact ih hmn hmx
    · rw [scanF.eq_def]
      dsimp only
      rw [if_neg h1, if_neg h2, if_neg h3, if_pos h4]
      exact ih hmn hmx
    · exact absurd rfl (hshape a b c rest2)
  | case18 fuel t rest mn mx h1 h2 h3 h4 ih =>
    rw [scanF.eq_def]
    dsimp only
    rw [if_neg h1, if_neg h2, if_neg h3, if_neg h4]
    exact ih hmn hmx

/-! ## Reconciliation facts -/

theorem reconcile_le {mn mx : Option Int} {a b : Int}
    (h1 : (reconcile mn mx).1 = some a) (h2 : (reconcile mn mx).2 = some b) :
    a ≤ b := by
  rcases mn with _ | x
  · rcases mx with _ | y <;> simp [reconcile] at h1
  · rcases mx with _ | y
    · simp [reconcile] at h2
    · by_cases hlt : y < x
      · simp [reconcile, hlt] at h1 h2
        omega
      · simp [reconcile, hlt] at h1 h2
        omega

theorem reconcile_mem_left {mn mx : Option Int} {a : Int}
    (h : (reconcile mn mx).1 = some a) : mn = some a ∨ mx = some a := by
  rcases mn with _ | x
  · rcases mx with _ | y <;> simp [reconcile] at h ⊢ <;> simp [h]
  · rcases mx with _ | y
    · simp [reconcile] at h
      simp [h]
    · by_cases hlt : y < x <;> simp [reconcile, hlt] at h <;> simp [h]

theorem reconcile_mem_right {mn mx : Option Int} {b : Int}
    (h : (reconcile mn mx).2 = some b) : mn = some b ∨ mx = some b := by
  rcases mn with _ | x
  · rcases mx with _ | y <;> simp [reconcile] at h ⊢ <;> simp [h]
  · rcases mx with _ | y
    · simp [reconcile] at h
    · by_cases hlt : y < x <;> simp [reconcile, hlt] at h <;> simp [h]

theorem reconcile_none_none : reconcile none none = (none, none) := rfl

/-! ## De-duplication facts -/

theorem dedupAux_sublist : ∀ (l seen : List String), List.Sublist (dedupAux l seen) l := by
  intro l
  induction l with
  | nil => intro seen; simp [dedupAux]
  | cons t ts ih =>
    intro seen
    by_cases h : t ∈ seen
    · simp only [dedupAux, if_pos h]
      exact (ih seen).cons t
    · simp only [dedupAux, if_neg h]
      exact (ih (t :: seen)).cons₂ t

theorem mem_dedupAux : ∀ {l seen x}, x ∈ dedupAux l seen → x ∈ l ∧ x ∉ seen := by
  intro l
  induction l with
  | nil => intro seen x hx; simp [dedupAux] at hx
  | cons t ts ih =>
    intro seen x hx
    by_cases h : t ∈ seen
    · rw [dedupAux, if_pos h] at hx
      obtain ⟨h1, h2⟩ := ih hx
      exact ⟨by simp [h1], h2⟩
    · rw [dedupAux, if_neg h] at hx
      rcases List.mem_cons.mp hx with rfl | hx2
      · exact ⟨by simp, h⟩
      · obtain ⟨h1, h2⟩ := ih hx2
        refine ⟨by simp [h1], fun hs => h2 (by simp [hs])⟩

theorem mem_dedupAux_of : ∀ {l seen x}, x ∈ l → x ∉ seen → x ∈ dedupAux l seen := by
  intro l
  induction l with
  | nil => intro seen x hx _; simp at hx
  | cons t ts ih =>
    intro seen x hx hs
    by_cases h : t ∈ seen
    · rw [dedupAux, if_pos h]
      rcases List.mem_cons.mp hx with rfl | hx2
      · exact absurd h hs
      · exact ih hx2 hs
    · rw [dedupAux, if_neg h]
      rcases List.mem_cons.mp hx with rfl | hx2
      · simp
      · by_cases hxt : x = t
        · simp [hxt]
        · exact List.mem_cons_of_mem t (ih hx2 (by simp [hxt, hs]))

theorem dedupAux_nodup : ∀ (l seen : List String), (dedupAux l seen).Nodup := by
  intro l
  induction l with
  | nil => intro seen; simp [dedupAux]
  | cons t ts ih =>
    intro seen
    by_cases h : t ∈ seen
    · rw [dedupAux, if_pos h]
      exact ih seen
    · rw [dedupAux, if_neg h]
      refine List.nodup_cons.mpr ⟨fun hmem => ?_, ih (t :: seen)⟩
      exact (mem_dedupAux hmem).2 (by simp)

theorem dedup_sublist (l : List String) : List.Sublist (dedup l) l :=
  dedupAux_sublist l []

theorem dedup_nodup (l : List String) : (dedup l).Nodup :=
  dedupAux_nodup l []

theorem mem_dedup_of {l : List String} {x : String} (h : x ∈ l) : x ∈ dedup l :=
  mem_dedupAux_of h (by simp)

/-! ## Facts about the assembled parser -/

theorem parse_keywords_def (s : String) :
    (parse_search_query s).keywords
      = dedup ((scanPrices (tokenize s) none none).1.filter
          (fun t => !(stopwords.contains t))) := rfl

theorem parse_min_def (s : String) :
    (parse_search_query s).min_price
      = (reconcile (scanPrices (tokenize s) none none).2.1
          (scanPrices (tokenize s) none none).2.2).1 := rfl

theorem parse_max_def (s : String) :
    (parse_search_query s).max_price
      = (reconcile (scanPrices (tokenize s) none none).2.1
          (scanPrices (tokenize s) none none).2.2).2 := rfl

theorem parse_keywords_sublist (s : String) :
    List.Sublist (parse_search_query s).keywords (tokenize s) := by
  rw [parse_keywords_def]
  refine (dedup_sublist _).trans (((List.filter_sublist _).trans ?_))
  exact scanF_keep_sublist _ _ _ _

theorem parse_keywords_good (s : String) :
    ∀ w ∈ (parse_search_query s).keywords, goodTok w := by
  intro w hw
  exact tokenize_good s w ((parse_keywords_sublist s).subset hw)

theorem parse_keywords_no_stopword (s : String) :
    ∀ w ∈ (parse_search_query s).keywords, w ∉ stopwords := by
  intro w hw
  rw [parse_keywords_def] at hw
  have hmem := (mem_dedupAux hw).1
  have := List.of_mem_filter hmem
  simpa using this

/-- Unfolding of the scanner entry point. -/
theorem scanPrices_def (ts : List String) (mn mx : Option Int) :
    scanPrices ts mn mx = scanF ts.length ts mn mx := rfl

/-! ## Claims -/

/-- C1: for every input string (including empty, malformed or arbitrary
text) the query parser returns a structured filter.  The embedding is a
total Lean function — no input can raise — and the `keywords` field is
always a genuine (possibly empty) list, never null. -/
theorem claim_C1_total (s : String) :
    ∃ (kws : List String) (mn mx : Option Int),
      parse_search_query s = ⟨kws, mn, mx⟩ :=
  ⟨_, _, _, rfl⟩

/-- C2: `parse_search_query "pottery between 100 and 300"` returns
keywords `["pottery"]`, `min_price = 100` and `max_price = 300`. -/
theorem claim_C2_between_example :
    parse_search_query "pottery between 100 and 300"
      = ⟨["pottery"], some 100, some 300⟩ := by
  decide

/-- C3: `parse_search_query "under 500"` returns no keywords,
`max_price = 500` and `min_price = none`; the empty string yields no
keywords and no bounds. -/
theorem claim_C3_under_and_empty :
    parse_search_query "under 500" = ⟨[], none, some 500⟩
      ∧ parse_search_query "" = ⟨[], none, none⟩ := by
  exact ⟨by decide, by decide⟩

/-- C4: whenever the returned filter carries both bounds, the lower one
does not exceed the upper one (in a between/from phrase with the larger
number first, the bounds are swapped — see the witness). -/
theorem claim_C4_min_le_max (s : String) (a b : Int)
    (h1 : (parse_search_query s).min_price = some a)
    (h2 : (parse_search_query s).max_price = some b) : a ≤ b := by
  rw [parse_min_def] at h1
  rw [parse_max_def] at h2
  exact reconcile_le h1 h2

/-- Witness for C4 at the swapped between-phrase
"between 300 and 100": the bounds come out as 100 and 300. -/
theorem claim_C4_witness :
    (parse_search_query "between 300 and 100").min_price = some 100
      ∧ (parse_search_query "between 300 and 100").max_price = some 300
      ∧ (100 : Int) ≤ 300 :=
  ⟨by decide, by decide,
    claim_C4_min_le_max "between 300 and 100" 100 300 (by decide) (by decide)⟩

/-- C5: the bounds stay `none` unless a price-trigger word occurs in
the tokenized input, and any bound that is set is non-negative. -/
theorem claim_C5_bounds (s : String) :
    ((parse_search_query s).min_price = none
        ∧ (parse_search_query s).max_price = none
      ∨ ∃ t ∈ tokenize s, t ∈ triggerWords)
      ∧ (∀ v, (parse_search_query s).min_price = some v → 0 ≤ v)
      ∧ (∀ v, (parse_search_query s).max_price = some v → 0 ≤ v) := by
  have hnn := scanF_nonneg (tokenize s).length (tokenize s) none none
    (fun v hv => by cases hv) (fun v hv => by cases hv)
  refine ⟨?_, ?_, ?_⟩
  · by_cases htrig : ∃ t ∈ tokenize s, t ∈ triggerWords
    · exact Or.inr htrig
    · push_neg at htrig
      left
      have hscan := scanF_no_trigger (tokenize s).length (tokenize s) none none htrig
      rw [parse_min_def, parse_max_def, scanPrices_def, hscan]
      exact ⟨rfl, rfl⟩
  · intro v hv
    rw [parse_min_def] at hv
    rcases reconcile_mem_left hv with h | h
    · exact hnn.1 v h
    · exact hnn.2 v h
  · intro v hv
    rw [parse_max_def] at hv
    rcases reconcile_mem_right hv with h | h
    · exact hnn.1 v h
    · exact hnn.2 v h

/-- Witness for C5 at "under 500": the detected bound 500 is
non-negative. -/
theorem claim_C5_witness : (0 : Int) ≤ 500 :=
  (claim_C5_bounds "under 500").2.2 500 (by decide)

/-- C6: a trigger word followed by a non-numeric token sets no bound,
and the non-numeric token is kept as a keyword: on "under abc" both
bounds are `none` and "abc" is among the keywords. -/
theorem claim_C6_graceful :
    (parse_search_query "under abc").min_price = none
      ∧ (parse_search_query "under abc").max_price = none
      ∧ "abc" ∈ (parse_search_query "under abc").keywords := by
  decide

/-- C7: feeding the space-joined keywords back into the parser yields a
subset of the original keywords — the round trip introduces no new
keyword. -/
theorem claim_C7_roundtrip (s : String) :
    ∀ w ∈ (parse_search_query
        (joinSpace (parse_search_query s).keywords)).keywords,
      w ∈ (parse_search_query s).keywords := by
  intro w hw
  have htok : tokenize (joinSpace (parse_search_query s).keywords)
      = (parse_search_query s).keywords :=
    tokenize_joinSpace _ (parse_keywords_good s)
  have hsub := parse_keywords_sublist (joinSpace (parse_search_query s).keywords)
  rw [htok] at hsub
  exact hsub.subset hw

/-- Witness for C7 at "handmade jewelry": "handmade" survives the round
trip and was an original keyword. -/
theorem claim_C7_witness :
    "handmade" ∈ (parse_search_query "handmade jewelry").keywords :=
  claim_C7_roundtrip "handmade jewelry" "handmade" (by decide)

/-- C8: the keywords are lowercase, contain no stopword, contain no
duplicates, and keep the tokens in first-seen order (they form a
sublist of the token stream). -/
theorem claim_C8_normalized (s : String) :
    (∀ w ∈ (parse_search_query s).keywords, ∀ c ∈ w.data, lowerChar c = c)
      ∧ (∀ w ∈ (parse_search_query s).keywords, w ∉ stopwords)
      ∧ (parse_search_query s).keywords.Nodup
      ∧ List.Sublist (parse_search_query s).keywords (tokenize s) := by
  refine ⟨?_, parse_keywords_no_stopword s, ?_, parse_keywords_sublist s⟩
  · intro w hw c hc
    exact ((parse_keywords_good s w hw).2 c hc).2
  · rw [parse_keywords_def]
    exact dedup_nodup _

/-- Witness for C8 at "The POTTERY wheel": the keyword "pottery" is
lowercase at its first character. -/
theorem claim_C8_witness : lowerChar 'p' = 'p' :=
  (claim_C8_normalized "The POTTERY wheel").1 "pottery" (by decide) 'p' (by decide)

/-- C9 counterexample: the posts listing route (`home`) consumes
`parse_search_query` and is a listing-search route, yet on
"pottery under 500" — whose parse carries `max_price = 500` — it emits
only the keyword filter and no price clause at all, so not every such
route applies the price bounds. -/
theorem claim_C9_counterexample :
    (parse_search_query "pottery under 500").max_price = some 500
      ∧ homeFilters "pottery under 500" = [WhereClause.keywordLike "%pottery%"]
      ∧ (homeFilters "pottery under 500").all
          (fun c => !(isPriceClause c)) = true := by
  decide

/-- C9 (amended): both listing routes build one case-insensitive
substring (`ilike`) filter per keyword against title/description/
author-name; the products route additionally applies `max_price` and
`min_price` as bounds on the price column, while the posts route
applies no price clause. -/
theorem claim_C9_route_filters (qArg : String) (hq : pyStrip qArg ≠ "") :
    (∀ tk ∈ (parse_search_query (pyStrip qArg)).keywords,
        WhereClause.keywordLike ("%" ++ tk ++ "%") ∈ homeFilters qArg
          ∧ WhereClause.keywordLike ("%" ++ tk ++ "%") ∈ productsFilters qArg)
      ∧ (∀ v, (parse_search_query (pyStrip qArg)).max_price = some v →
          WhereClause.priceAtMost v ∈ productsFilters qArg)
      ∧ (∀ v, (parse_search_query (pyStrip qArg)).min_price = some v →
          WhereClause.priceAtLeast v ∈ productsFilters qArg)
      ∧ (∀ c ∈ homeFilters qArg, isPriceClause c = false) := by
  rw [homeFilters, productsFilters, if_neg hq, if_neg hq]
  refine ⟨?_, ?_, ?_, ?_⟩
  · intro tk htk
    refine ⟨List.mem_map_of_mem _ htk, ?_⟩
    have hbase : WhereClause.keywordLike ("%" ++ tk ++ "%")
        ∈ (parse_search_query (pyStrip qArg)).keywords.map
          (fun tk => WhereClause.keywordLike ("%" ++ tk ++ "%")) :=
      List.mem_map_of_mem _ htk
    rcases hmx : (parse_search_query (pyStrip qArg)).max_price with _ | v
    all_goals rcases hmn : (parse_search_query (pyStrip qArg)).min_price with _ | u
    all_goals simp only [hmx, hmn]
    all_goals simp [hbase]
  · intro v hv
    dsimp only
    rw [hv]
    rcases hmn : (parse_search_query (pyStrip qArg)).min_price with _ | u
    all_goals simp [hmn]
  · intro v hv
    dsimp only
    rw [hv]
    rcases hmx : (parse_search_query (pyStrip qArg)).max_price with _ | u
    all_goals simp [hmx]
  · intro c hc
    rcases List.mem_map.mp hc with ⟨tk, _, rfl⟩
    rfl

/-- Witness for C9 (amended) at "pottery under 500": the products route
carries the keyword filter and the upper price bound. -/
theorem claim_C9_witness :
    WhereClause.keywordLike "%pottery%" ∈ productsFilters "pottery under 500"
      ∧ WhereClause.priceAtMost 500 ∈ productsFilters "pottery under 500" :=
  ⟨((claim_C9_route_filters "pottery under 500" (by decide)).1
      "pottery" (by decide)).2,
    (claim_C9_route_filters "pottery under 500" (by decide)).2.1 500 (by decide)⟩

/-- C10: `extract_hashtags` returns the `#`-prefixed words of the text,
lowercased, de-duplicated keeping the first occurrence and its order
(a sublist of the lowercased match list containing every match), and
returns `[]` on `None` and on the empty string. -/
theorem claim_C10_hashtags :
    extract_hashtags none = [] ∧ extract_hashtags (some "") = []
      ∧ ∀ s : String,
          (extract_hashtags (some s)).Nodup
          ∧ (∀ w ∈ extract_hashtags (some s), ∀ c ∈ w.data, lowerChar c = c)
          ∧ List.Sublist (extract_hashtags (some s))
              ((findTags s.data).map strLower)
          ∧ (∀ t ∈ findTags s.data, strLower t ∈ extract_hashtags (some s))
          ∧ (∀ w ∈ extract_hashtags (some s),
              w ∈ (findTags s.data).map strLower) := by
  refine ⟨rfl, rfl, ?_⟩
  intro s
  by_cases hs : s = ""
  · subst hs
    refine ⟨by simp [extract_hashtags], ?_, ?_, ?_, ?_⟩
    all_goals simp [extract_hashtags, findTags, findTagsF,
      show ("" : String).data = [] from rfl]
  · have hx : extract_hashtags (some s)
        = dedup ((findTags s.data).map strLower) := by
      simp [extract_hashtags, hs]
    rw [hx]
    refine ⟨dedup_nodup _, ?_, dedup_sublist _, ?_, ?_⟩
    · intro w hw c hc
      rcases List.mem_map.mp (mem_dedupAux hw).1 with ⟨t, _, rfl⟩
      rcases List.mem_map.mp hc with ⟨d, _, rfl⟩
      exact lowerChar_idem d
    · intro t ht
      exact mem_dedup_of (List.mem_map_of_mem _ ht)
    · intro w hw
      exact (mem_dedupAux hw).1

/-- Witness for C10 at "go #HandMade now": the match "HandMade" shows
up lowercased in the result. -/
theorem claim_C10_witness :
    strLower "HandMade" ∈ extract_hashtags (some "go #HandMade now") :=
  (claim_C10_hashtags.2.2 "go #HandMade now").2.2.2.1 "HandMade" (by decide)
